import Mathlib

/-!
Verification of the Esmraldi fusion-workflow documentation against the
notebook code (quickstart tutorial and advanced example).  The notebooks
call into the esmraldi library; the library internals are not part of the
reviewed sources, so those operations are modelled from the spec text that
describes them, while the notebook cell code itself is embedded faithfully.
Intensities and m/z values are represented by rational numbers.
-/

namespace Esmraldi

/-- A spectrum is a list of pairs of an m/z value and an intensity,
mirroring the two middle rows of the 3D numpy spectra array. -/
abbrev Spectrum := List (ℚ × ℚ)

/-- The m/z value of a spectrum at index i (0 outside the range). -/
def mzAt (s : Spectrum) (i : ℕ) : ℚ := ((s.map Prod.fst).getD i 0)

/-- The intensity of a spectrum at index i (0 outside the range). -/
def intensityAt (s : Spectrum) (i : ℕ) : ℚ := ((s.map Prod.snd).getD i 0)

/-- Median of a list of rationals: middle element of the sorted list, or the
mean of the two middle elements for an even length. -/
def median (l : List ℚ) : ℚ :=
  let s := l.insertionSort (· ≤ ·)
  if l.length % 2 = 1 then s.getD (l.length / 2) 0
  else (s.getD (l.length / 2 - 1) 0 + s.getD (l.length / 2) 0) / 2

/-- Median absolute deviation of a list of rationals. -/
def medianAbsoluteDeviation (l : List ℚ) : ℚ :=
  median (l.map (fun v => |v - median l|))

/-- Modelled from the spec: the window of length wlen centred at index i used
for the local noise estimate of the peak detector (the implementation of
esmraldi.spectraprocessing is not among the sources; the spec says the local
noise is estimated in a window of length w). -/
def localWindow (ys : List ℚ) (wlen i : ℕ) : List ℚ :=
  (ys.drop (i - wlen / 2)).take wlen

/-- Modelled from the spec: the local noise sigma at index i, the median
absolute deviation over the local window of length wlen. -/
def localNoise (ys : List ℚ) (wlen i : ℕ) : ℚ :=
  medianAbsoluteDeviation (localWindow ys wlen i)

/-- An interior index i is a local maximum of ys when its value strictly
exceeds both neighbours. -/
def isLocalMax (ys : List ℚ) (i : ℕ) : Bool :=
  decide (0 < i) && decide (i + 1 < ys.length) &&
    decide (ys.getD (i - 1) 0 < ys.getD i 0) &&
    decide (ys.getD (i + 1) 0 < ys.getD i 0)

/-- Modelled from the spec: index i is a detected peak when it is a local
maximum whose intensity is above factor times the local noise. -/
def isPeak (ys : List ℚ) (factor : ℚ) (wlen i : ℕ) : Bool :=
  isLocalMax ys i && decide (factor * localNoise ys wlen i < ys.getD i 0)

/-- Indices of detected peaks of an intensity list. -/
def peakIndices (ys : List ℚ) (factor : ℚ) (wlen : ℕ) : List ℕ :=
  (List.range ys.length).filter (isPeak ys factor wlen)

/-- Modelled from the spec: the m/z values of the detected peaks of one
spectrum (esmraldi.spectraprocessing.spectra_peak_mzs_adaptative applied to a
single spectrum). -/
def spectrumPeakMzs (s : Spectrum) (factor : ℚ) (wlen : ℕ) : List ℚ :=
  (peakIndices (s.map Prod.snd) factor wlen).map (mzAt s)

/-- Modelled from the spec: peak m/z values detected in every spectrum
(esmraldi.spectraprocessing.spectra_peak_mzs_adaptative). -/
def spectra_peak_mzs_adaptative (spectra : List Spectrum) (factor : ℚ)
    (wlen : ℕ) : List (List ℚ) :=
  spectra.map (fun s => spectrumPeakMzs s factor wlen)

/-- Modelled from the spec: group a sorted list of m/z values into runs of
consecutive values that are closer than the step tolerance; a value joins the
following group exactly when its gap to that group head is below step. -/
def groupMzs (step : ℚ) : List ℚ → List (List ℚ)
  | [] => []
  | x :: xs =>
    match groupMzs step xs with
    | [] => [[x]]
    | [] :: gs => [x] :: gs
    | (y :: g) :: gs =>
      if y - x < step then (x :: y :: g) :: gs else [x] :: (y :: g) :: gs

/-- Two groups are separated when the gap from the last value of the first
to the first value of the second reaches the step tolerance. -/
def farRel (step : ℚ) (g1 g2 : List ℚ) : Prop :=
  ∀ a b : ℚ, g1.getLast? = some a → g2.head? = some b → step ≤ b - a

/-- Modelled from the spec: the reference m/z values of the aligner, the
median m/z value of each group of close detected m/z values. -/
def realignReferences (mzs : List ℚ) (step : ℚ) : List ℚ :=
  (groupMzs step mzs).map median

/-- The intensity of the detected pair of a spectrum whose m/z value is
nearest to a reference value r. -/
def nearestIntensity (s : Spectrum) (r : ℚ) : ℚ :=
  (s.foldl (fun acc p =>
    match acc with
    | none => some p
    | some q => if |p.1 - r| < |q.1 - r| then some p else some q) none).elim 0
    Prod.snd

/-- Modelled from the spec: esmraldi.spectraprocessing.realign_mzs with the
median reference: all detected m/z values are grouped with tolerance step,
each group is represented by its median, and every spectrum is realigned onto
the reference axis. -/
def realign_mzs (spectra : List Spectrum) (detected : List (List ℚ))
    (step : ℚ) : List Spectrum :=
  let refs := realignReferences (detected.flatten.insertionSort (· ≤ ·)) step
  spectra.map (fun s => refs.map (fun r => (r, nearestIntensity s r)))

/-- A 2D image: a size in each axis and a pixel map (sitk index order). -/
structure Img2 where
  sx : ℕ
  sy : ℕ
  pix : ℕ → ℕ → ℚ

/-- The finite pixel domain of a 2D image. -/
def Img2.domain (im : Img2) : Finset (ℕ × ℕ) :=
  Finset.range im.sx ×ˢ Finset.range im.sy

/-- The list of all pixel values of a 2D image, row by row. -/
def Img2.values (im : Img2) : List ℚ :=
  (List.range im.sx).flatMap (fun i => (List.range im.sy).map (im.pix i))

/-- Modelled from the spec: the intensity threshold of an image at quantile q
(in percent), the element of the sorted value list at the scaled index; numpy
percentile interpolation details are not among the sources. -/
def quantileValue (im : Img2) (q : ℕ) : ℚ :=
  (im.values.insertionSort (· ≤ ·)).getD (q * (im.values.length - 1) / 100) 0

/-- Modelled from the spec: a pixel of the binary image of im at quantile
threshold q is active when its value exceeds the quantile threshold. -/
def binAt (im : Img2) (q : ℕ) (p : ℕ × ℕ) : Bool :=
  decide (quantileValue im q < im.pix p.1 p.2)

/-- The 4-neighbourhood of a pixel (with clipping at zero). -/
def neighbors (p : ℕ × ℕ) : List (ℕ × ℕ) :=
  [(p.1 + 1, p.2), (p.1 - 1, p.2), (p.1, p.2 + 1), (p.1, p.2 - 1)]

/-- One expansion step of a pixel set: adjoin every active pixel of the
domain adjacent to the current set. -/
def expandStep (dom : Finset (ℕ × ℕ)) (act : ℕ × ℕ → Bool)
    (s : Finset (ℕ × ℕ)) : Finset (ℕ × ℕ) :=
  s ∪ dom.filter (fun p => act p && (neighbors p).any (fun q => decide (q ∈ s)))

/-- Pixels reachable from the seed set through active pixels of the domain:
the expansion step iterated as many times as the domain has pixels. -/
def reachSet (dom : Finset (ℕ × ℕ)) (act : ℕ × ℕ → Bool)
    (seeds : Finset (ℕ × ℕ)) : Finset (ℕ × ℕ) :=
  (expandStep dom act)^[dom.card] seeds

/-- The connected component of an active pixel p in the binary image of im at
quantile q (empty when p is inactive). -/
def componentOf (im : Img2) (q : ℕ) (p : ℕ × ℕ) : Finset (ℕ × ℕ) :=
  if binAt im q p then reachSet im.domain (binAt im q) {p} else ∅

/-- The area of the largest connected component of the binary image of im at
quantile threshold q. -/
def largestComponentArea (im : Img2) (q : ℕ) : ℕ :=
  (im.domain.filter (fun p => binAt im q p)).sup
    (fun p => (componentOf im q p).card)

/-- Modelled from the spec: esmraldi.segmentation.spatial_coherence, the
minimum over the quantile thresholds of the area of the largest connected
component of the image binarized at that threshold. -/
def spatial_coherence (im : Img2) (quantiles : List ℕ) : ℕ :=
  match quantiles with
  | [] => 0
  | q :: qs =>
    qs.foldl (fun acc q2 => min acc (largestComponentArea im q2))
      (largestComponentArea im q)

/-- Modelled from the spec: keep the ion images whose spatial coherence
passes the given threshold
(esmraldi.segmentation.find_similar_images_spatial_coherence); the stack of
ion images is represented as a list of 2D images, one per m/z channel. -/
def find_similar_images_spatial_coherence (stack : List Img2)
    (threshold : ℕ) (quantiles : List ℕ) : List Img2 :=
  stack.filter (fun im => decide (threshold < spatial_coherence im quantiles))

/-- Width of the first image of a stack (0 for an empty stack). -/
def stackSx (stack : List Img2) : ℕ := ((stack.head?.map Img2.sx).getD 0)

/-- Height of the first image of a stack (0 for an empty stack). -/
def stackSy (stack : List Img2) : ℕ := ((stack.head?.map Img2.sy).getD 0)

/-- The pixelwise average of a stack of images over the channel axis
(np.average with axis -1 on the channels-last array). -/
def meanImage (stack : List Img2) : Img2 :=
  ⟨stackSx stack, stackSy stack,
    fun i j => (stack.map (fun im => im.pix i j)).sum / stack.length⟩

/-- Modelled from the spec: the region grown on one image from the seed set,
keeping pixels whose intensity is at least the lower threshold. -/
def growRegion (im : Img2) (seeds : Finset (ℕ × ℕ)) (lower : ℚ) :
    Finset (ℕ × ℕ) :=
  reachSet im.domain (fun p => decide (lower ≤ im.pix p.1 p.2))
    ((seeds.filter (fun p => p ∈ im.domain)).filter
      (fun p => lower ≤ im.pix p.1 p.2))

/-- Modelled from the spec: esmraldi.segmentation.region_growing on a stack
of images, starting from the given seed set with the given lower intensity
threshold; the resulting region is the union of the regions grown on the
images of the stack. -/
def region_growing (stack : List Img2) (seeds : Finset (ℕ × ℕ)) (lower : ℚ) :
    Finset (ℕ × ℕ) :=
  stack.foldr (fun im acc => growRegion im seeds lower ∪ acc) ∅

/-- An executable enumeration of a finite set of pixel coordinates, row by
row over the bounding grid of the set. -/
def finsetPairList (s : Finset (ℕ × ℕ)) : List (ℕ × ℕ) :=
  let n := (s.sup (fun p => max p.1 p.2)) + 1
  ((List.range n).flatMap (fun i => (List.range n).map (Prod.mk i))).filter
    (fun p => decide (p ∈ s))

/-- The all-ones mask of the segmentation cell (np.ones_like(mean_image)). -/
def onesMask (sx sy : ℕ) : Img2 := ⟨sx, sy, fun _ _ => 1⟩

/-- Fancy-indexed assignment of the segmentation cell: set the mask to zero
at every coordinate pair of the list, one after another. -/
def setZeros (m : Img2) : List (ℕ × ℕ) → Img2
  | [] => m
  | p :: ps =>
    setZeros ⟨m.sx, m.sy, fun i j => if i = p.1 ∧ j = p.2 then 0 else m.pix i j⟩ ps

/-- The masked array filled with zero: pixels where the mask is nonzero are
masked out and filled with 0, the others keep the data value. -/
def maskedFilled (data mask : Img2) : Img2 :=
  ⟨data.sx, data.sy, fun i j => if mask.pix i j = 0 then data.pix i j else 0⟩

/-- The segmentation cell of the notebooks: select the spatially coherent
images, average them, grow a region on them from the seeds, and keep the
mean image on the grown region through the ones mask, the masked array and
filled(0). -/
def segmentationCell (maldi : List Img2) (threshold : ℕ) (quantiles : List ℕ)
    (seeds : Finset (ℕ × ℕ)) (lower : ℚ) : Img2 :=
  let spatiallyCoherent := find_similar_images_spatial_coherence maldi threshold quantiles
  let meanImg := meanImage spatiallyCoherent
  let listEnd := finsetPairList (region_growing spatiallyCoherent seeds lower)
  let xs := listEnd.map Prod.fst
  let ys := listEnd.map Prod.snd
  let mask := setZeros (onesMask meanImg.sx meanImg.sy) (xs.zip ys)
  maskedFilled meanImg mask

/-- Modelled from the spec: the transform component choices of the
registration (esmraldi.registration internals are not among the sources). -/
inductive TransformType
  | rigidTranslationScalingRotation
  | translation2D
  | affine2D
deriving DecidableEq

/-- Modelled from the spec: the similarity metric component choices. -/
inductive MetricType
  | mattesMutualInformation (numberBins : ℕ) (samplingPercentage : ℚ) (seed : ℕ)
  | meanSquares
deriving DecidableEq

/-- Modelled from the spec: the optimizer component choices; the regular step
gradient descent carries the learning rate (initial step length), the
relaxation factor (the factor reducing the step length each time the
derivative sign changes) and the min step (the stop criterion). -/
inductive OptimizerType
  | regularStepGradientDescent (learningRate relaxationFactor minStep : ℚ)
  | exhaustive
deriving DecidableEq

/-- Modelled from the spec: the interpolator component choices. -/
inductive InterpolatorType
  | nearestNeighbor
  | linear
deriving DecidableEq

/-- The four components of a configured registration method. -/
structure RegistrationMethod where
  transform : TransformType
  metric : MetricType
  optimizer : OptimizerType
  interpolator : InterpolatorType

/-- A fitted registration: the fixed and moving images, the configured
method, and the fitted coordinate map produced by the iterative optimizer
(the optimization itself is an external numeric process and is carried as a
value). -/
structure Registration where
  fixedImage : Img2
  movingImage : Img2
  method : RegistrationMethod
  fittedMap : ℕ × ℕ → ℕ × ℕ

/-- Modelled from the spec: esmraldi.registration.register builds the
registration of the moving image onto the fixed image with a rigid transform,
a Mattes mutual information metric over numberBins bins with the given
sampling percentage and seed, a regular step gradient descent optimizer with
the given learning rate, relaxation factor and min step, and a nearest
neighbor interpolator; fitted stands for the coordinate map found by the
optimizer. -/
def register (fixed moving : Img2) (numberBins : ℕ) (samplingPercentage : ℚ)
    (seed : ℕ) (learningRate relaxationFactor minStep : ℚ)
    (fitted : ℕ × ℕ → ℕ × ℕ) : Registration :=
  { fixedImage := fixed
    movingImage := moving
    method :=
      { transform := TransformType.rigidTranslationScalingRotation
        metric := MetricType.mattesMutualInformation numberBins samplingPercentage seed
        optimizer := OptimizerType.regularStepGradientDescent learningRate relaxationFactor minStep
        interpolator := InterpolatorType.nearestNeighbor }
    fittedMap := fitted }

/-- Executing a fitted registration on an image resamples that image into
the frame of the fixed image: the output has the size of the fixed image and
reads the input through the fitted coordinate map. -/
def Registration.Execute (R : Registration) (img : Img2) : Img2 :=
  ⟨R.fixedImage.sx, R.fixedImage.sy,
    fun i j => img.pix (R.fittedMap (i, j)).1 (R.fittedMap (i, j)).2⟩

/-- Modelled from the spec: esmraldi.imageutils.resize to a target size by
nearest-neighbor coordinate scaling. -/
def resize (im : Img2) (sx sy : ℕ) : Img2 :=
  ⟨sx, sy, fun i j => im.pix (i * im.sx / sx) (j * im.sy / sy)⟩

/-- The output of the registration cell of the notebooks: the optical image
as the cell leaves it, the fitted registration, and the registered segmented
image. -/
structure RegistrationCellOut where
  opticalOut : Img2
  registrationOut : Registration
  registeredSeg : Img2

/-- The registration cell of the notebooks: resize the MALDI segmented image
to the optical size, build the registration with the optical image as first
argument, and execute it on the segmented image; the optical image is passed
through untouched. -/
def registrationCell (optical segmented : Img2) (numberBins : ℕ)
    (samplingPercentage : ℚ) (seed : ℕ)
    (learningRate relaxationFactor minStep : ℚ)
    (fitted : ℕ × ℕ → ℕ × ℕ) : RegistrationCellOut :=
  let segmentedResized := resize segmented optical.sx optical.sy
  let R := register optical segmentedResized numberBins samplingPercentage
    seed learningRate relaxationFactor minStep fitted
  ⟨optical, R, R.Execute segmentedResized⟩

/-- A 3D image in sitk index order: sizes along x, y, z and a pixel map. -/
structure Img3 where
  sx : ℕ
  sy : ℕ
  sz : ℕ
  pix : ℕ → ℕ → ℕ → ℚ

/-- A 3D numpy array: a shape and a value map. -/
structure Arr3 where
  d0 : ℕ
  d1 : ℕ
  d2 : ℕ
  val : ℕ → ℕ → ℕ → ℚ

/-- Slicing a 3D sitk image at x-index i: the remaining y and z axes become
the two axes of the 2D image. -/
def sliceX (v : Img3) (i : ℕ) : Img2 :=
  ⟨v.sy, v.sz, fun a b => v.pix i a b⟩

/-- sitk.JoinSeries of a single 2D image: a 3D image of depth one. -/
def joinSeries (s : Img2) : Img3 :=
  ⟨s.sx, s.sy, 1, fun x y _ => s.pix x y⟩

/-- sitk.Paste of a source block into a destination at z-offset dz: within
the pasted block the source value is read, elsewhere the destination is
kept; the destination size is unchanged. -/
def paste (dst src : Img3) (dz : ℕ) : Img3 :=
  ⟨dst.sx, dst.sy, dst.sz,
    fun x y z =>
      if x < src.sx ∧ y < src.sy ∧ dz ≤ z ∧ z < dz + src.sz then
        src.pix x y (z - dz)
      else dst.pix x y z⟩

/-- sitk.GetArrayFromImage: the numpy view of a 3D sitk image, with the axis
order reversed (array index (z, y, x) reads image pixel (x, y, z)). -/
def getArrayFromImage (v : Img3) : Arr3 :=
  ⟨v.sz, v.sy, v.sx, fun a b c => v.pix c b a⟩

/-- np.transpose with axes (1, 2, 0). -/
def transpose120 (a : Arr3) : Arr3 :=
  ⟨a.d1, a.d2, a.d0, fun p q r => a.val r p q⟩

/-- A blank 3D sitk image of the given size (sitk.Image(size, pixelID)). -/
def blankImg3 (sx sy sz : ℕ) : Img3 := ⟨sx, sy, sz, fun _ _ _ => 0⟩

/-- The shared per-slice registration loop of both notebooks: for every
x-index of the volume, execute the fitted registration on the slice, join it
into a depth-one series, and paste it into the accumulator at z-offset i. -/
def sliceLoop (v : Img3) (execute : Img2 → Img2) (out0 : Img3) : Img3 :=
  (List.range v.sx).foldl
    (fun out i => paste out (joinSeries (execute (sliceX v i))) i) out0

/-- The quickstart per-slice registration cell: the accumulator is allocated
with size list [size[2], size[1], size[0]], and the pasted result is read
back as a numpy array and transposed with axes (1, 2, 0). -/
def quickstartRegisteredImage (v : Img3) (execute : Img2 → Img2) : Arr3 :=
  transpose120 (getArrayFromImage (sliceLoop v execute (blankImg3 v.sz v.sy v.sx)))

/-- The advanced-example per-slice registration cell: identical to the
quickstart loop except that the accumulator is allocated with size list
[size[1], size[2], size[0]]. -/
def advancedRegisteredImage (v : Img3) (execute : Img2 → Img2) : Arr3 :=
  transpose120 (getArrayFromImage (sliceLoop v execute (blankImg3 v.sy v.sz v.sx)))

/-- esmraldi.fusion.flatten on a single (reference) image: the list of its
pixel values. -/
def flattenImg (im : Img2) : List ℚ :=
  (List.range im.sx).flatMap (fun i => (List.range im.sy).map (im.pix i))

/-- esmraldi.fusion.flatten with is_spectral on a channels-last volume: one
row per ion image, each row the flattened ion image. -/
def flattenStack (stack : List Img2) : List (List ℚ) :=
  stack.map flattenImg

/-- The squared weighted euclidean distance between two reduced-space points;
the square root is omitted since only the induced order is used. -/
def weightedSqDist (weights p q : List ℚ) : ℚ :=
  ((weights.zip (p.zip q)).map (fun w => w.1 * (w.2.1 - w.2.2) ^ 2)).sum

/-- The comparison used to rank ion images: by the distance component of the
triple of an image, its m/z value and its distance. -/
def distLE (a b : Img2 × ℚ × ℚ) : Prop := a.2.2 ≤ b.2.2

instance : DecidableRel distLE := fun a b => inferInstanceAs (Decidable (a.2.2 ≤ b.2.2))

instance : IsTotal (Img2 × ℚ × ℚ) distLE := ⟨fun a b => le_total a.2.2 b.2.2⟩

instance : IsTrans (Img2 × ℚ × ℚ) distLE := ⟨fun _ _ _ h h2 => le_trans h h2⟩

/-- Modelled from the spec: esmraldi.fusion.select_images pairs every ion
image with its m/z value and the weighted distance between its reduced
representation and the projected reference point, and returns the images,
m/z values and distances sorted by ascending distance (labels None and top
None, as in both notebooks). -/
def select_images (stack : List Img2) (point : List ℚ)
    (reduction : List (List ℚ)) (weights : List ℚ) (mzs : List ℚ) :
    List Img2 × List ℚ × List ℚ :=
  let dists := reduction.map (fun row => weightedSqDist weights row point)
  let sorted := (stack.zip (mzs.zip dists)).insertionSort distLE
  (sorted.map Prod.fst, sorted.map (fun t => t.2.1), sorted.map (fun t => t.2.2))

/-- The output of the joint statistical analysis cell. -/
structure FusionOut where
  similarImages : List Img2
  similarMzs : List ℚ
  distances : List ℚ

/-- The joint statistical analysis cell of the notebooks: flatten the
registered MALDI volume and the reference image, factorize the MALDI rows
into n components with the fitted model (NMF or PCA, an external fit carried
as the fitModel value), transform both with the same fitted model, and rank
the ion images with select_images under unit weights. -/
def fusionCell (registered : List Img2) (optical : Img2) (n : ℕ)
    (fitModel : ℕ → List (List ℚ) → (List ℚ → List ℚ)) (mzs : List ℚ) :
    FusionOut :=
  let maldiFlat := flattenStack registered
  let red := fitModel n maldiFlat
  let reduction := maldiFlat.map red
  let pointOptical := red (flattenImg optical)
  let weights := List.replicate ((reduction.head?.getD []).length) (1 : ℚ)
  let sel := select_images registered pointOptical reduction weights mzs
  ⟨sel.1, sel.2.1, sel.2.2⟩

/-- Modelled from the spec: io.get_images_from_spectra, one ion image per
m/z channel, reading spectra in row-major pixel order over the given shape. -/
def get_images_from_spectra (spectra : List Spectrum) (sx sy : ℕ) :
    List Img2 :=
  (List.range ((spectra.head?.getD []).length)).map (fun k =>
    ⟨sx, sy, fun i j => ((spectra.getD (i * sy + j) []).getD k (0, 0)).2⟩)

/-- The largest pixel value of an image (0 for an empty image). -/
def imgMax (im : Img2) : ℚ := im.values.foldl max 0

/-- Modelled from the spec: io.normalize, scaling every ion image to the
0 to 255 intensity range by its maximum. -/
def normalize (stack : List Img2) : List Img2 :=
  stack.map (fun im =>
    ⟨im.sx, im.sy,
      fun i j => if imgMax im = 0 then 0 else im.pix i j * 255 / imgMax im⟩)

/-- The external inputs of a notebook run: the loaded arrays, the parameters
of every cell, and the outcomes of the external numeric collaborators (the
optimizer of the registration and the sklearn factorization fit). -/
structure WorkflowEnv where
  rawSpectra : List Spectrum
  optical : Img2
  factor : ℚ
  wlen : ℕ
  step : ℚ
  shapeX : ℕ
  shapeY : ℕ
  cohThreshold : ℕ
  quantiles : List ℕ
  seeds : Finset (ℕ × ℕ)
  lower : ℚ
  numberBins : ℕ
  samplingPercentage : ℚ
  seedRng : ℕ
  learningRate : ℚ
  relaxationFactor : ℚ
  minStep : ℚ
  fitted : ℕ × ℕ → ℕ × ℕ
  nComponents : ℕ
  fitModel : ℕ → List (List ℚ) → (List ℚ → List ℚ)

/-- The variables bound by the notebook cells, one field per array the
workflow produces. -/
structure NotebookState where
  spectraArr : List Spectrum
  realignedArr : List Spectrum
  maldiStack : List Img2
  segmentedImg : Img2
  registeredStack : List Img2
  resultOut : FusionOut

/-- The state before any cell has run: every variable still blank. -/
def initState : NotebookState :=
  ⟨[], [], [], ⟨0, 0, fun _ _ => 0⟩, [], ⟨[], [], []⟩⟩

/-- Stage 1, the loader: the spectra array read from the imzML file. -/
def loaderStage (env : WorkflowEnv) : List Spectrum := env.rawSpectra

/-- Stage 2, the peak detector and aligner: detect peaks in every spectrum
and realign all spectra on the grouped median references. -/
def peakAlignStage (env : WorkflowEnv) (spectra : List Spectrum) :
    List Spectrum :=
  realign_mzs spectra (spectra_peak_mzs_adaptative spectra env.factor env.wlen) env.step

/-- Stage 3, the segmenter: build the normalized ion-image stack from the
realigned spectra and run the segmentation cell on it. -/
def segmenterStage (env : WorkflowEnv) (realigned : List Spectrum) :
    List Img2 × Img2 :=
  let maldi := normalize (get_images_from_spectra realigned env.shapeX env.shapeY)
  (maldi, segmentationCell maldi env.cohThreshold env.quantiles env.seeds env.lower)

/-- Stage 4, the registrar: fit the registration of the segmented image onto
the optical image and execute it on every resized ion image of the stack. -/
def registrarStage (env : WorkflowEnv) (seg : List Img2 × Img2) :
    List Img2 :=
  let cell := registrationCell env.optical seg.2 env.numberBins
    env.samplingPercentage env.seedRng env.learningRate env.relaxationFactor
    env.minStep env.fitted
  seg.1.map (fun im =>
    cell.registrationOut.Execute (resize im env.optical.sx env.optical.sy))

/-- Stage 5, fusion and ranking: the joint statistical analysis cell on the
registered stack against the optical image, with the m/z axis of the
realigned spectra. -/
def fusionStage (env : WorkflowEnv) (mzsRef : List ℚ)
    (registered : List Img2) : FusionOut :=
  fusionCell registered env.optical env.nComponents env.fitModel mzsRef

/-- The m/z axis bound by the alignment cell (realigned_spectra[0, 0, :]). -/
def mzAxis (realigned : List Spectrum) : List ℚ :=
  (realigned.head?.getD []).map Prod.fst

/-- The loading cell: bind the spectra variable. -/
def runLoaderCell (env : WorkflowEnv) (s : NotebookState) : NotebookState :=
  { s with spectraArr := loaderStage env }

/-- The peak detection and alignment cells: bind the realigned spectra from
the spectra variable. -/
def runPeakCell (env : WorkflowEnv) (s : NotebookState) : NotebookState :=
  { s with realignedArr := peakAlignStage env s.spectraArr }

/-- The segmentation cell: bind the ion-image stack and the segmented image
from the realigned spectra. -/
def runSegmenterCell (env : WorkflowEnv) (s : NotebookState) : NotebookState :=
  { s with
    maldiStack := (segmenterStage env s.realignedArr).1
    segmentedImg := (segmenterStage env s.realignedArr).2 }

/-- The registration cells: bind the registered stack from the ion-image
stack and the segmented image. -/
def runRegistrarCell (env : WorkflowEnv) (s : NotebookState) : NotebookState :=
  { s with registeredStack := registrarStage env (s.maldiStack, s.segmentedImg) }

/-- The joint statistical analysis cell: bind the ranking result from the
registered stack and the m/z axis. -/
def runFusionCell (env : WorkflowEnv) (s : NotebookState) : NotebookState :=
  { s with resultOut := fusionStage env (mzAxis s.realignedArr) s.registeredStack }

/-- A full notebook run: the five cells executed in their listed order. -/
def runNotebook (env : WorkflowEnv) : NotebookState :=
  runFusionCell env (runRegistrarCell env (runSegmenterCell env
    (runPeakCell env (runLoaderCell env initState))))

/-- C1: for every run of the workflow, the five stages execute in the fixed
order Loader, Peak Detector/Aligner, Segmenter, Registrar, Fusion/Ranking:
every cell binds its output from the arrays bound by the immediately
preceding stage only (so no stage consumes the output of a later stage), and
the full run equals the nested composition of the five stage functions in
that order, with no stage skipped or reordered. -/
theorem c1_pipeline_stage_order (env : WorkflowEnv) :
    (runLoaderCell env initState).spectraArr = loaderStage env ∧
    (∀ s : NotebookState,
      (runPeakCell env s).realignedArr = peakAlignStage env s.spectraArr) ∧
    (∀ s : NotebookState,
      (runSegmenterCell env s).maldiStack = (segmenterStage env s.realignedArr).1 ∧
      (runSegmenterCell env s).segmentedImg = (segmenterStage env s.realignedArr).2) ∧
    (∀ s : NotebookState,
      (runRegistrarCell env s).registeredStack =
        registrarStage env (s.maldiStack, s.segmentedImg)) ∧
    (∀ s : NotebookState,
      (runFusionCell env s).resultOut =
        fusionStage env (mzAxis s.realignedArr) s.registeredStack) ∧
    (runNotebook env).resultOut =
      fusionStage env (mzAxis (peakAlignStage env (loaderStage env)))
        (registrarStage env (segmenterStage env (peakAlignStage env (loaderStage env)))) :=
  ⟨rfl, fun _ => rfl, fun _ => ⟨rfl, rfl⟩, fun _ => rfl, fun _ => rfl, rfl⟩

/-- C8: no stage of the pipeline mutates an array produced by an earlier
stage: each of the Segmenter, Registrar and Fusion cells leaves every array
bound by an earlier cell exactly as it was, and after the whole run the
spectra, realigned spectra, ion-image stack and segmented image still hold
the values their own stages produced. -/
theorem c8_no_stage_mutates_earlier_arrays (env : WorkflowEnv) :
    (∀ s : NotebookState, (runPeakCell env s).spectraArr = s.spectraArr) ∧
    (∀ s : NotebookState,
      (runSegmenterCell env s).spectraArr = s.spectraArr ∧
      (runSegmenterCell env s).realignedArr = s.realignedArr) ∧
    (∀ s : NotebookState,
      (runRegistrarCell env s).spectraArr = s.spectraArr ∧
      (runRegistrarCell env s).realignedArr = s.realignedArr ∧
      (runRegistrarCell env s).maldiStack = s.maldiStack ∧
      (runRegistrarCell env s).segmentedImg = s.segmentedImg) ∧
    (∀ s : NotebookState,
      (runFusionCell env s).spectraArr = s.spectraArr ∧
      (runFusionCell env s).realignedArr = s.realignedArr ∧
      (runFusionCell env s).maldiStack = s.maldiStack ∧
      (runFusionCell env s).segmentedImg = s.segmentedImg) ∧
    (runNotebook env).spectraArr = loaderStage env ∧
    (runNotebook env).realignedArr = peakAlignStage env (loaderStage env) ∧
    (runNotebook env).maldiStack =
      (segmenterStage env (peakAlignStage env (loaderStage env))).1 ∧
    (runNotebook env).segmentedImg =
      (segmenterStage env (peakAlignStage env (loaderStage env))).2 :=
  ⟨fun _ => rfl, fun _ => ⟨rfl, rfl⟩, fun _ => ⟨rfl, rfl, rfl, rfl⟩,
    fun _ => ⟨rfl, rfl, rfl, rfl⟩, rfl, rfl, rfl, rfl⟩

/-- C5: register builds a registration whose transform is the rigid transform
composed of translation, scaling and rotation, whose similarity metric is
Mattes mutual information parameterized by the number of bins, the sampling
percentage and the seed, whose optimizer is regular step gradient descent
parameterized by the learning rate, the relaxation factor and the min step,
and whose interpolator is nearest neighbor. -/
theorem c5_register_components (fixed moving : Img2) (numberBins : ℕ)
    (samplingPercentage : ℚ) (seed : ℕ)
    (learningRate relaxationFactor minStep : ℚ) (fitted : ℕ × ℕ → ℕ × ℕ) :
    (register fixed moving numberBins samplingPercentage seed learningRate
        relaxationFactor minStep fitted).method.transform =
      TransformType.rigidTranslationScalingRotation ∧
    (register fixed moving numberBins samplingPercentage seed learningRate
        relaxationFactor minStep fitted).method.metric =
      MetricType.mattesMutualInformation numberBins samplingPercentage seed ∧
    (register fixed moving numberBins samplingPercentage seed learningRate
        relaxationFactor minStep fitted).method.optimizer =
      OptimizerType.regularStepGradientDescent learningRate relaxationFactor minStep ∧
    (register fixed moving numberBins samplingPercentage seed learningRate
        relaxationFactor minStep fitted).method.interpolator =
      InterpolatorType.nearestNeighbor :=
  ⟨rfl, rfl, rfl, rfl⟩

/-- C6: in the registration cell the optical image is the fixed image and
the MALDI segmented image (resized to the optical size) is the moving image;
executing the fitted registration on a MALDI image yields an image of the
size of the optical reference frame whose pixels resample that image through
the fitted coordinate map, and the optical image leaves the cell exactly as
it entered it. -/
theorem c6_fixed_optical_moving_maldi (optical segmented m : Img2)
    (numberBins : ℕ) (samplingPercentage : ℚ) (seed : ℕ)
    (learningRate relaxationFactor minStep : ℚ) (fitted : ℕ × ℕ → ℕ × ℕ) :
    (registrationCell optical segmented numberBins samplingPercentage seed
        learningRate relaxationFactor minStep fitted).registrationOut.fixedImage =
      optical ∧
    (registrationCell optical segmented numberBins samplingPercentage seed
        learningRate relaxationFactor minStep fitted).registrationOut.movingImage =
      resize segmented optical.sx optical.sy ∧
    ((registrationCell optical segmented numberBins samplingPercentage seed
        learningRate relaxationFactor minStep fitted).registrationOut.Execute m).sx =
      optical.sx ∧
    ((registrationCell optical segmented numberBins samplingPercentage seed
        learningRate relaxationFactor minStep fitted).registrationOut.Execute m).sy =
      optical.sy ∧
    (∀ i j : ℕ,
      ((registrationCell optical segmented numberBins samplingPercentage seed
          learningRate relaxationFactor minStep fitted).registrationOut.Execute m).pix i j =
        m.pix (fitted (i, j)).1 (fitted (i, j)).2) ∧
    (registrationCell optical segmented numberBins samplingPercentage seed
        learningRate relaxationFactor minStep fitted).opticalOut = optical :=
  ⟨rfl, rfl, rfl, rfl, fun _ _ => rfl, rfl⟩

theorem setZeros_pix (l : List (ℕ × ℕ)) : ∀ (m : Img2) (i j : ℕ),
    (setZeros m l).pix i j = if (i, j) ∈ l then 0 else m.pix i j := by
  induction l with
  | nil => intro m i j; simp [setZeros]
  | cons p ps ih =>
    intro m i j
    rw [setZeros, ih]
    by_cases hmem : (i, j) ∈ ps
    · simp [hmem]
    · by_cases hp : (i, j) = p
      · obtain ⟨a, b⟩ := p
        simp only [Prod.mk.injEq] at hp
        simp [hmem, hp]
      · obtain ⟨a, b⟩ := p
        simp only [Prod.mk.injEq] at hp
        simp [hmem, hp, List.mem_cons]

theorem mem_finsetPairList (s : Finset (ℕ × ℕ)) (p : ℕ × ℕ) :
    p ∈ finsetPairList s ↔ p ∈ s := by
  obtain ⟨a, b⟩ := p
  simp only [finsetPairList, List.mem_filter, List.mem_flatMap, List.mem_map,
    List.mem_range, decide_eq_true_iff]
  constructor
  · rintro ⟨⟨i, _, j, _, h⟩, hp⟩
    exact hp
  · intro hp
    refine ⟨⟨a, ?_, b, ?_, rfl⟩, hp⟩
    · exact Nat.lt_succ_of_le (le_trans (le_max_left _ _)
        (Finset.le_sup (f := fun q => max q.1 q.2) hp))
    · exact Nat.lt_succ_of_le (le_trans (le_max_right _ _)
        (Finset.le_sup (f := fun q => max q.1 q.2) hp))

theorem segmentationCell_pix (maldi : List Img2) (thr : ℕ) (qs : List ℕ)
    (seeds : Finset (ℕ × ℕ)) (lower : ℚ) (i j : ℕ) :
    (segmentationCell maldi thr qs seeds lower).pix i j =
      if (i, j) ∈ region_growing (find_similar_images_spatial_coherence maldi thr qs) seeds lower
      then (meanImage (find_similar_images_spatial_coherence maldi thr qs)).pix i j
      else 0 := by
  by_cases h : (i, j) ∈
      region_growing (find_similar_images_spatial_coherence maldi thr qs) seeds lower
  · have h2 : (i, j) ∈ finsetPairList
        (region_growing (find_similar_images_spatial_coherence maldi thr qs) seeds lower) :=
      (mem_finsetPairList _ _).mpr h
    simp [segmentationCell, maskedFilled, Eq.symm (List.zip_of_prod rfl rfl),
      setZeros_pix, h, h2]
  · have h2 : (i, j) ∉ finsetPairList
        (region_growing (find_similar_images_spatial_coherence maldi thr qs) seeds lower) :=
      fun hc => h ((mem_finsetPairList _ _).mp hc)
    simp [segmentationCell, maskedFilled, Eq.symm (List.zip_of_prod rfl rfl),
      setZeros_pix, h, h2, onesMask]

/-- C9: in the segmentation cell, every pixel whose coordinates are in the
list returned by region growing equals the corresponding pixel of the mean
image (the average of the spatially coherent images over the channel axis),
and every other pixel equals 0: the double inversion through the all-ones
mask, the masked array and filled(0) preserves this exactly. -/
theorem c9_segmented_image_pixels (maldi : List Img2) (thr : ℕ) (qs : List ℕ)
    (seeds : Finset (ℕ × ℕ)) (lower : ℚ) (i j : ℕ) :
    (segmentationCell maldi thr qs seeds lower).pix i j =
      if (i, j) ∈ finsetPairList
          (region_growing (find_similar_images_spatial_coherence maldi thr qs) seeds lower)
      then (meanImage (find_similar_images_spatial_coherence maldi thr qs)).pix i j
      else 0 := by
  rw [segmentationCell_pix]
  simp [mem_finsetPairList]

/-- C3: the Segmenter selects exactly the ion images whose spatial coherence
passes the given threshold, region growing runs on that selected subset only
(from the given seed set with the given lower intensity threshold), and the
representative segmented image is the pixelwise average of the selected
images on the grown region and 0 elsewhere. -/
theorem c3_segmenter_selected_subset (maldi : List Img2) (thr : ℕ)
    (qs : List ℕ) (seeds : Finset (ℕ × ℕ)) (lower : ℚ) :
    (find_similar_images_spatial_coherence maldi thr qs =
      maldi.filter (fun im => decide (thr < spatial_coherence im qs))) ∧
    (∀ im : Img2, im ∈ find_similar_images_spatial_coherence maldi thr qs ↔
      im ∈ maldi ∧ thr < spatial_coherence im qs) ∧
    (∀ i j : ℕ, (segmentationCell maldi thr qs seeds lower).pix i j =
      if (i, j) ∈ region_growing
          (maldi.filter (fun im => decide (thr < spatial_coherence im qs))) seeds lower
      then (meanImage
          (maldi.filter (fun im => decide (thr < spatial_coherence im qs)))).pix i j
      else 0) := by
  refine ⟨rfl, ?_, ?_⟩
  · intro im
    simp [find_similar_images_spatial_coherence, List.mem_filter]
  · intro i j
    exact segmentationCell_pix maldi thr qs seeds lower i j

/-- C10 counterexample: with the same registered volume (here of sitk size
1 x 1 x 2) and the same fitted registration, the quickstart per-slice loop
and the advanced-example per-slice loop do not compute the same registered
image array: the two allocation orders give final arrays of different
shapes (first axis 1 versus 2). -/
theorem c10_counterexample_loops_differ :
    quickstartRegisteredImage ⟨1, 1, 2, fun _ _ _ => 0⟩ (fun _ => ⟨1, 1, fun _ _ => 0⟩) ≠
      advancedRegisteredImage ⟨1, 1, 2, fun _ _ _ => 0⟩ (fun _ => ⟨1, 1, fun _ _ => 0⟩) :=
  fun h => absurd (congrArg Arr3.d0 h) (by decide)

/-- C10 amended: the two per-slice registration loops compute the same
registered image array whenever the two in-slice sizes of the registered
volume agree (a square slice frame, as with the quickstart data); only then
do the two allocation orders coincide. -/
theorem c10_loops_agree_on_square_frames (v : Img3) (execute : Img2 → Img2)
    (h : v.sy = v.sz) :
    quickstartRegisteredImage v execute = advancedRegisteredImage v execute := by
  unfold quickstartRegisteredImage advancedRegisteredImage
  rw [h]

/-- C10 witness: a concrete square-frame volume on which the amended theorem
applies. -/
theorem c10_loops_agree_witness :
    (⟨2, 3, 3, fun _ _ _ => 0⟩ : Img3).sy = (⟨2, 3, 3, fun _ _ _ => 0⟩ : Img3).sz ∧
    quickstartRegisteredImage ⟨2, 3, 3, fun _ _ _ => 0⟩ (fun s => s) =
      advancedRegisteredImage ⟨2, 3, 3, fun _ _ _ => 0⟩ (fun s => s) :=
  ⟨rfl, c10_loops_agree_on_square_frames _ _ rfl⟩

theorem foldl_min_le_init (l : List ℕ) : ∀ a : ℕ, l.foldl min a ≤ a := by
  induction l with
  | nil => intro a; simp
  | cons x xs ih => intro a; exact le_trans (ih (min a x)) (min_le_left a x)

theorem foldl_min_le_mem (l : List ℕ) : ∀ a b : ℕ, b ∈ l → l.foldl min a ≤ b := by
  induction l with
  | nil =>
    intro a b hb
    cases hb
  | cons x xs ih =>
    intro a b hb
    rcases List.mem_cons.mp hb with rfl | hb
    · exact le_trans (foldl_min_le_init xs (min a b)) (min_le_right a b)
    · exact ih (min a x) b hb

theorem foldl_min_eq_init_or_mem (l : List ℕ) :
    ∀ a : ℕ, l.foldl min a = a ∨ l.foldl min a ∈ l := by
  induction l with
  | nil =>
    intro a
    left
    rfl
  | cons x xs ih =>
    intro a
    rcases ih (min a x) with h | h
    · rcases min_cases a x with ⟨hmin, _⟩ | ⟨hmin, _⟩
      · left
        rw [List.foldl_cons, h, hmin]
      · right
        rw [List.foldl_cons, h, hmin]
        exact List.mem_cons_self x xs
    · right
      exact List.mem_cons_of_mem x h

/-- C4: for every ion image and every nonempty list of quantile thresholds,
the spatial coherence measure equals the minimum, over the quantile
thresholds, of the area of the largest connected component of the image
binarized at that threshold: it is a lower bound of those areas and is
attained at one of the thresholds. -/
theorem c4_spatial_coherence_is_min (im : Img2) (quantiles : List ℕ)
    (h : quantiles ≠ []) :
    (∀ q ∈ quantiles,
      spatial_coherence im quantiles ≤ largestComponentArea im q) ∧
    (∃ q ∈ quantiles,
      spatial_coherence im quantiles = largestComponentArea im q) := by
  cases quantiles with
  | nil => exact absurd rfl h
  | cons q qs =>
    have hsc : spatial_coherence im (q :: qs) =
        (qs.map (largestComponentArea im)).foldl min (largestComponentArea im q) := by
      rw [List.foldl_map]
      rfl
    constructor
    · intro q2 hq2
      rcases List.mem_cons.mp hq2 with rfl | hq2
      · rw [hsc]
        exact foldl_min_le_init _ _
      · rw [hsc]
        exact foldl_min_le_mem _ _ _ (List.mem_map_of_mem _ hq2)
    · rcases foldl_min_eq_init_or_mem (qs.map (largestComponentArea im))
        (largestComponentArea im q) with h1 | h1
      · exact ⟨q, List.mem_cons_self q qs, by rw [hsc, h1]⟩
      · rcases List.mem_map.mp h1 with ⟨q2, hq2, hq2e⟩
        exact ⟨q2, List.mem_cons_of_mem q hq2, by rw [hsc, hq2e]⟩

/-- C4 witness: the characterization applied to a concrete 2 x 1 image and
the quantile list holding 50. -/
theorem c4_spatial_coherence_witness :
    ([50] : List ℕ) ≠ [] ∧
    ((∀ q ∈ ([50] : List ℕ),
      spatial_coherence ⟨2, 1, fun i _ => if i = 0 then 1 else 0⟩ [50] ≤
        largestComponentArea ⟨2, 1, fun i _ => if i = 0 then 1 else 0⟩ q) ∧
    (∃ q ∈ ([50] : List ℕ),
      spatial_coherence ⟨2, 1, fun i _ => if i = 0 then 1 else 0⟩ [50] =
        largestComponentArea ⟨2, 1, fun i _ => if i = 0 then 1 else 0⟩ q)) :=
  ⟨by decide, c4_spatial_coherence_is_min ⟨2, 1, fun i _ => if i = 0 then 1 else 0⟩
    [50] (by decide)⟩

theorem nil_not_mem_groupMzs (step : ℚ) :
    ∀ mzs : List ℚ, [] ∉ groupMzs step mzs := by
  intro mzs
  induction mzs with
  | nil => simp [groupMzs]
  | cons x xs ih =>
    cases hg : groupMzs step xs with
    | nil =>
      rw [groupMzs, hg]
      simp
    | cons g0 gs =>
      cases g0 with
      | nil => exact absurd (hg ▸ List.mem_cons_self [] gs) ih
      | cons y g2 =>
        rw [groupMzs, hg]
        dsimp only
        by_cases hcl : y - x < step
        · rw [if_pos hcl]
          intro hmem
          rcases List.mem_cons.mp hmem with h | h
          · exact List.cons_ne_nil _ _ h.symm
          · exact ih (hg ▸ List.mem_cons_of_mem _ h)
        · rw [if_neg hcl]
          intro hmem
          rcases List.mem_cons.mp hmem with h | h
          · exact List.cons_ne_nil _ _ h.symm
          · rcases List.mem_cons.mp h with h2 | h2
            · exact List.cons_ne_nil _ _ h2.symm
            · exact ih (hg ▸ List.mem_cons_of_mem _ h2)

theorem groupMzs_flatten (step : ℚ) :
    ∀ mzs : List ℚ, (groupMzs step mzs).flatten = mzs := by
  intro mzs
  induction mzs with
  | nil => simp [groupMzs]
  | cons x xs ih =>
    cases hg : groupMzs step xs with
    | nil =>
      have hxs : xs = [] := by
        rw [← ih, hg]
        rfl
      rw [groupMzs, hg, hxs]
      rfl
    | cons g0 gs =>
      have ih2 := ih
      rw [hg] at ih2
      cases g0 with
      | nil =>
        rw [groupMzs, hg]
        simp only [List.flatten_cons, List.nil_append] at ih2
        simp [List.flatten_cons, ih2]
      | cons y g2 =>
        rw [groupMzs, hg]
        dsimp only
        by_cases hcl : y - x < step
        · rw [if_pos hcl]
          simp only [List.flatten_cons] at ih2 ⊢
          rw [← ih2]
          rfl
        · rw [if_neg hcl]
          simp only [List.flatten_cons] at ih2 ⊢
          rw [← ih2]
          rfl

theorem groupMzs_chain_close (step : ℚ) :
    ∀ mzs : List ℚ, ∀ g ∈ groupMzs step mzs,
      g.Chain' (fun a b => b - a < step) := by
  intro mzs
  induction mzs with
  | nil => simp [groupMzs]
  | cons x xs ih =>
    intro g hgmem
    cases hg : groupMzs step xs with
    | nil =>
      rw [groupMzs, hg] at hgmem
      simp only [List.mem_singleton] at hgmem
      simp [hgmem]
    | cons g0 gs =>
      have ihr : ∀ g2 ∈ g0 :: gs, g2.Chain' (fun a b => b - a < step) :=
        fun g2 h2 => ih g2 (hg ▸ h2)
      cases g0 with
      | nil =>
        rw [groupMzs, hg] at hgmem
        rcases List.mem_cons.mp hgmem with rfl | h
        · simp
        · exact ihr g (List.mem_cons_of_mem _ h)
      | cons y g2 =>
        rw [groupMzs, hg] at hgmem
        dsimp only at hgmem
        by_cases hcl : y - x < step
        · rw [if_pos hcl] at hgmem
          rcases List.mem_cons.mp hgmem with rfl | h
          · exact List.chain'_cons.mpr ⟨hcl, ihr (y :: g2) (List.mem_cons_self _ _)⟩
          · exact ihr g (List.mem_cons_of_mem _ h)
        · rw [if_neg hcl] at hgmem
          rcases List.mem_cons.mp hgmem with rfl | h
          · simp
          · exact ihr g h

theorem groupMzs_boundaries (step : ℚ) :
    ∀ mzs : List ℚ, List.Chain' (farRel step) (groupMzs step mzs) := by
  intro mzs
  induction mzs with
  | nil => simp [groupMzs]
  | cons x xs ih =>
    cases hg : groupMzs step xs with
    | nil =>
      rw [groupMzs, hg]
      simp
    | cons g0 gs =>
      have ihr : List.Chain' (farRel step) (g0 :: gs) := hg ▸ ih
      cases g0 with
      | nil => exact absurd (hg ▸ List.mem_cons_self [] gs) (nil_not_mem_groupMzs step xs)
      | cons y g2 =>
        rw [groupMzs, hg]
        dsimp only
        by_cases hcl : y - x < step
        · rw [if_pos hcl]
          cases gs with
          | nil => simp
          | cons g3 gs2 =>
            have h1 := List.chain'_cons.mp ihr
            refine List.chain'_cons.mpr ⟨?_, h1.2⟩
            intro a b ha hb
            exact h1.1 a b (by rwa [List.getLast?_cons_cons] at ha) hb
        · rw [if_neg hcl]
          refine List.chain'_cons.mpr ⟨?_, ihr⟩
          intro a b ha hb
          have hax : a = x := by simpa using ha.symm
          have hby : b = y := by simpa using hb.symm
          subst hax
          subst hby
          exact not_lt.mp hcl

theorem chain'_conj {α : Type} {r q : α → α → Prop} :
    ∀ {l : List α}, l.Chain' r → l.Chain' q →
      l.Chain' (fun a b => r a b ∧ q a b) := by
  intro l
  induction l with
  | nil =>
    intro _ _
    simp
  | cons x xs ih =>
    cases xs with
    | nil =>
      intro _ _
      simp
    | cons y ys =>
      intro hr hq
      rcases List.chain'_cons.mp hr with ⟨hr1, hr2⟩
      rcases List.chain'_cons.mp hq with ⟨hq1, hq2⟩
      exact List.chain'_cons.mpr ⟨⟨hr1, hq1⟩, ih hr2 hq2⟩

theorem mem_spectrumPeakMzs (s : Spectrum) (factor : ℚ) (wlen : ℕ) (m : ℚ) :
    m ∈ spectrumPeakMzs s factor wlen ↔
      ∃ i : ℕ, 0 < i ∧ i + 1 < s.length ∧
        intensityAt s (i - 1) < intensityAt s i ∧
        intensityAt s (i + 1) < intensityAt s i ∧
        factor * medianAbsoluteDeviation (localWindow (s.map Prod.snd) wlen i) <
          intensityAt s i ∧
        m = mzAt s i := by
  unfold spectrumPeakMzs peakIndices isPeak isLocalMax localNoise intensityAt
  simp only [List.mem_map, List.mem_filter, List.mem_range, Bool.and_eq_true,
    decide_eq_true_iff, List.length_map]
  constructor
  · rintro ⟨i, ⟨-, h⟩, rfl⟩
    refine ⟨i, ?_⟩
    tauto
  · rintro ⟨i, h0, h1, h2, h3, h4, rfl⟩
    refine ⟨i, ⟨Nat.lt_of_succ_lt h1, ?_⟩, rfl⟩
    tauto

theorem realign_mzs_axis (spectra : List Spectrum) (detected : List (List ℚ))
    (step : ℚ) :
    ∀ t ∈ realign_mzs spectra detected step,
      t.map Prod.fst =
        realignReferences (detected.flatten.insertionSort (· ≤ ·)) step := by
  intro t ht
  unfold realign_mzs at ht
  simp only [List.mem_map] at ht
  obtain ⟨s, _, rfl⟩ := ht
  rw [List.map_map]
  have hcomp : (Prod.fst ∘ fun r : ℚ => (r, nearestIntensity s r)) = id := rfl
  rw [hcomp, List.map_id]

/-- C2: for every spectrum the peak detector returns exactly the local maxima
whose intensity is above factor times the local noise, where the local noise
is the median absolute deviation in a window of length wlen around the point;
the aligner groups the sorted detected m/z values into runs of values closer
than the step tolerance (adjacent groups being at least step apart), takes
the median m/z value of each group as the reference, and every realigned
spectrum carries exactly that reference m/z axis. -/
theorem c2_peak_detection_and_alignment (s : Spectrum) (factor : ℚ)
    (wlen : ℕ) (spectra : List Spectrum) (detected : List (List ℚ))
    (mzs : List ℚ) (step : ℚ) (hs : mzs.Sorted (· ≤ ·)) :
    (∀ m : ℚ, m ∈ spectrumPeakMzs s factor wlen ↔
      ∃ i : ℕ, 0 < i ∧ i + 1 < s.length ∧
        intensityAt s (i - 1) < intensityAt s i ∧
        intensityAt s (i + 1) < intensityAt s i ∧
        factor * medianAbsoluteDeviation (localWindow (s.map Prod.snd) wlen i) <
          intensityAt s i ∧
        m = mzAt s i) ∧
    (spectra_peak_mzs_adaptative spectra factor wlen =
      spectra.map (fun t => spectrumPeakMzs t factor wlen)) ∧
    ((groupMzs step mzs).flatten = mzs) ∧
    (∀ g ∈ groupMzs step mzs, g.Chain' (fun a b => |b - a| < step)) ∧
    (List.Chain' (farRel step) (groupMzs step mzs)) ∧
    (realignReferences mzs step = (groupMzs step mzs).map median) ∧
    (∀ t ∈ realign_mzs spectra detected step,
      t.map Prod.fst =
        realignReferences (detected.flatten.insertionSort (· ≤ ·)) step) := by
  refine ⟨mem_spectrumPeakMzs s factor wlen, rfl, groupMzs_flatten step mzs,
    ?_, groupMzs_boundaries step mzs, rfl,
    realign_mzs_axis spectra detected step⟩
  intro g hg
  have hsub : g.Sublist mzs := by
    rw [← groupMzs_flatten step mzs]
    exact List.sublist_flatten_of_mem hg
  have hsorted : g.Chain' (· ≤ ·) := List.Pairwise.chain' (hs.sublist hsub)
  have hclose := groupMzs_chain_close step mzs g hg
  refine (chain'_conj hsorted hclose).imp ?_
  intro a b hab
  rw [abs_of_nonneg (sub_nonneg.mpr hab.1)]
  exact hab.2

/-- C2 witness: the peak and alignment characterization applied to the empty
spectrum and a concrete sorted m/z list with step 2. -/
theorem c2_peak_alignment_witness :
    ([(100 : ℚ), 101, 105] : List ℚ).Sorted (· ≤ ·) ∧
    ((∀ m : ℚ, m ∈ spectrumPeakMzs [] 5 3 ↔
      ∃ i : ℕ, 0 < i ∧ i + 1 < ([] : Spectrum).length ∧
        intensityAt [] (i - 1) < intensityAt [] i ∧
        intensityAt [] (i + 1) < intensityAt [] i ∧
        5 * medianAbsoluteDeviation (localWindow (([] : Spectrum).map Prod.snd) 3 i) <
          intensityAt [] i ∧
        m = mzAt [] i) ∧
    (spectra_peak_mzs_adaptative [] 5 3 =
      ([] : List Spectrum).map (fun t => spectrumPeakMzs t 5 3)) ∧
    ((groupMzs 2 [(100 : ℚ), 101, 105]).flatten =
      [(100 : ℚ), 101, 105]) ∧
    (∀ g ∈ groupMzs 2 [(100 : ℚ), 101, 105],
      g.Chain' (fun a b => |b - a| < 2)) ∧
    (List.Chain' (farRel 2) (groupMzs 2 [(100 : ℚ), 101, 105])) ∧
    (realignReferences [(100 : ℚ), 101, 105] 2 =
      (groupMzs 2 [(100 : ℚ), 101, 105]).map median) ∧
    (∀ t ∈ realign_mzs [] [] 2,
      t.map Prod.fst =
        realignReferences
          (([] : List (List ℚ)).flatten.insertionSort (· ≤ ·)) 2)) :=
  ⟨by decide, c2_peak_detection_and_alignment [] 5 3 [] []
    [(100 : ℚ), 101, 105] 2 (by decide)⟩

theorem zip_dist_of_mem {g : Img2 → ℚ} :
    ∀ (stack : List Img2) (mzsl : List ℚ),
      ∀ t ∈ stack.zip (mzsl.zip (stack.map g)), t.2.2 = g t.1 := by
  intro stack
  induction stack with
  | nil =>
    intro mzsl t ht
    cases ht
  | cons im ims ih =>
    intro mzsl t ht
    cases mzsl with
    | nil => cases ht
    | cons z zs =>
      rcases List.mem_cons.mp ht with rfl | h
      · rfl
      · exact ih zs t h

theorem zip_unzip_triple {α β γ : Type} :
    ∀ l : List (α × β × γ),
      (l.map Prod.fst).zip
        ((l.map (fun t => t.2.1)).zip (l.map (fun t => t.2.2))) = l := by
  intro l
  induction l with
  | nil => rfl
  | cons t ts ih => simp [ih]

theorem select_images_sorted (stack : List Img2) (point : List ℚ)
    (reduction : List (List ℚ)) (weights : List ℚ) (mzs : List ℚ) :
    (select_images stack point reduction weights mzs).2.2.Sorted (· ≤ ·) := by
  unfold select_images
  dsimp only
  show List.Pairwise _ _
  rw [List.pairwise_map]
  exact List.sorted_insertionSort distLE _

theorem select_images_zip (stack : List Img2) (point : List ℚ)
    (reduction : List (List ℚ)) (weights : List ℚ) (mzs : List ℚ) :
    (select_images stack point reduction weights mzs).1.zip
      ((select_images stack point reduction weights mzs).2.1.zip
        (select_images stack point reduction weights mzs).2.2) =
      (stack.zip (mzs.zip
        (reduction.map (fun row => weightedSqDist weights row point)))).insertionSort
        distLE := by
  unfold select_images
  dsimp only
  exact zip_unzip_triple _

/-- C7: the fusion cell factorizes the flattened registered MALDI stack with
the fitted model, projects the flattened reference image with the same
fitted model, and returns the ion images, their m/z values and their
distances ordered by ascending weighted distance between each ion image's
reduced representation and the reference image's projected point: the
returned distance list is sorted ascending, the returned triples are a
permutation of the input triples, and every returned distance is the
weighted distance of its own image's reduced representation to the
projected reference point. -/
theorem c7_fusion_distance_ranking (registered : List Img2) (optical : Img2)
    (n : ℕ) (fitModel : ℕ → List (List ℚ) → (List ℚ → List ℚ))
    (mzs : List ℚ) :
    (fusionCell registered optical n fitModel mzs).distances.Sorted (· ≤ ·) ∧
    ((fusionCell registered optical n fitModel mzs).similarImages.zip
      ((fusionCell registered optical n fitModel mzs).similarMzs.zip
        (fusionCell registered optical n fitModel mzs).distances)).Perm
      (registered.zip (mzs.zip (registered.map (fun im =>
        weightedSqDist
          (List.replicate (((flattenStack registered).map
            (fitModel n (flattenStack registered))).head?.getD []).length (1 : ℚ))
          (fitModel n (flattenStack registered) (flattenImg im))
          (fitModel n (flattenStack registered) (flattenImg optical)))))) ∧
    (∀ t ∈ (fusionCell registered optical n fitModel mzs).similarImages.zip
      ((fusionCell registered optical n fitModel mzs).similarMzs.zip
        (fusionCell registered optical n fitModel mzs).distances),
      t.2.2 =
        weightedSqDist
          (List.replicate (((flattenStack registered).map
            (fitModel n (flattenStack registered))).head?.getD []).length (1 : ℚ))
          (fitModel n (flattenStack registered) (flattenImg t.1))
          (fitModel n (flattenStack registered) (flattenImg optical))) := by
  have hz := select_images_zip registered
    (fitModel n (flattenStack registered) (flattenImg optical))
    ((flattenStack registered).map (fitModel n (flattenStack registered)))
    (List.replicate (((flattenStack registered).map
      (fitModel n (flattenStack registered))).head?.getD []).length (1 : ℚ))
    mzs
  have h2 : (fusionCell registered optical n fitModel mzs).similarImages.zip
      ((fusionCell registered optical n fitModel mzs).similarMzs.zip
        (fusionCell registered optical n fitModel mzs).distances) = _ := hz
  have hdists : ((flattenStack registered).map
      (fitModel n (flattenStack registered))).map
        (fun row => weightedSqDist
          (List.replicate (((flattenStack registered).map
            (fitModel n (flattenStack registered))).head?.getD []).length (1 : ℚ))
          row (fitModel n (flattenStack registered) (flattenImg optical))) =
      registered.map (fun im =>
        weightedSqDist
          (List.replicate (((flattenStack registered).map
            (fitModel n (flattenStack registered))).head?.getD []).length (1 : ℚ))
          (fitModel n (flattenStack registered) (flattenImg im))
          (fitModel n (flattenStack registered) (flattenImg optical))) := by
    rw [List.map_map]
    show (registered.map flattenImg).map _ = _
    rw [List.map_map]
    rfl
  refine ⟨select_images_sorted registered
    (fitModel n (flattenStack registered) (flattenImg optical))
    ((flattenStack registered).map (fitModel n (flattenStack registered)))
    (List.replicate (((flattenStack registered).map
      (fitModel n (flattenStack registered))).head?.getD []).length (1 : ℚ))
    mzs, ?_, ?_⟩
  · rw [h2, ← hdists]
    exact List.perm_insertionSort distLE _
  · intro t ht
    rw [h2] at ht
    have ht2 := (List.perm_insertionSort distLE _).subset ht
    rw [hdists] at ht2
    exact zip_dist_of_mem registered mzs t ht2

end Esmraldi
